import Mathlib

/-!
Verification development for the `pypose` nonlinear least-squares optimizers
(`GaussNewton` and `LevenbergMarquardt` in `pypose/optim/optimizer.py`).

The optimizer core is shallowly embedded over exact rationals:
tensors are flattened `List ℚ` vectors, matrices are row-major `List (List ℚ)`,
and the PyTorch tensor/linear-algebra primitives the source calls are translated
operation by operation, keeping their runtime shape checks as `Except` errors.
The differentiable model is the external collaborator of the spec; it is
represented by a quadratic-affine family (coefficients `Wt`, `Q`, `Wf`, `Wx`,
offset `b`), rich enough to give parameter-dependent Jacobians while keeping
every derivative an explicit, checkable formula.
-/

/-- A flattened tensor: a column vector of rationals. -/
abbrev Vec := List ℚ

/-- A row-major matrix. -/
abbrev Mat := List Vec

/-- Dot product (`torch` reduces over the common length; on well-formed data
the two lengths agree). -/
def dotQ (a b : Vec) : ℚ := (List.zipWith (· * ·) a b).sum

/-- Matrix–(column-)vector product. -/
def matVec (A : Mat) (v : Vec) : Vec := A.map (fun r => dotQ r v)

/-- Number of columns of a row-major matrix (length of its first row). -/
def widthM (A : Mat) : Nat := (A.headD []).length

/-- Column `j` of `A`. -/
def colJ (A : Mat) (j : Nat) : Vec := A.map (fun r => r.getD j 0)

/-- Transpose of a (rectangular) row-major matrix. -/
def transposeM (A : Mat) : Mat := (List.range (widthM A)).map (colJ A)

/-- Matrix product `A · B`. -/
def matMulM (A B : Mat) : Mat := A.map (fun r => (transposeM B).map (fun c => dotQ r c))

/-- Entrywise sum of two matrices. -/
def matAdd (A B : Mat) : Mat := List.zipWith (List.zipWith (· + ·)) A B

/-- Scale column `j` of `A` by `s j` (entry `(i,j)` becomes `A i j * s j`). -/
def colScale (A : Mat) (s : Vec) : Mat := A.map (fun r => List.zipWith (· * ·) r s)

/-- `(-1)^j` as a rational, written without a power so that kernel evaluation
stays cheap. -/
def signQ (j : Nat) : ℚ := if j % 2 = 0 then 1 else -1

/-- Laplace-expansion determinant with an explicit structural fuel (the fuel is
always instantiated with the row count, and the recursion consumes one row per
step, so the fuel never runs out on square input). -/
def detFuel : Nat → Mat → ℚ
  | 0, _ => 1
  | _, [] => 1
  | n + 1, r :: rs =>
    (List.range r.length).foldr
      (fun j acc => signQ j * r.getD j 0 * detFuel n (rs.map (fun q => q.eraseIdx j)) + acc) 0

/-- Determinant of a square matrix. -/
def detQ (A : Mat) : ℚ := detFuel A.length A

/-- Remove row `i` and column `j`. -/
def minorM (A : Mat) (i j : Nat) : Mat := (A.eraseIdx i).map (fun r => r.eraseIdx j)

/-- Inverse of an invertible square matrix by the adjugate formula. -/
def adjInv (A : Mat) : Mat :=
  let d := detQ A
  (List.range A.length).map (fun i =>
    (List.range A.length).map (fun j => signQ (i + j) * detQ (minorM A j i) / d))

/-- Modelled from the spec: `torch.Tensor.pinverse`, the Moore–Penrose
pseudo-inverse used by the Gauss-Newton slow path (§4.4, "pseudo-inverse
mode").  For invertible `A` the pseudo-inverse is the ordinary inverse,
computed here by the adjugate formula.  None of the claims below observes the
value of the singular branch (it is only ever applied to the zero gradient
vector, on which every linear map agrees), so that branch is represented by
the zero matrix of the same shape. -/
def pinvM (A : Mat) : Mat :=
  if detQ A = 0 then A.map (fun r => r.map (fun _ => 0)) else adjInv A

/-- Leading principal minors are all positive: Sylvester's criterion for
positive definiteness of a symmetric matrix. -/
def posDefM (A : Mat) : Bool :=
  (List.range A.length).all (fun k => 0 < detQ ((A.take (k + 1)).map (fun r => r.take (k + 1))))

/-- The runtime failure conditions the embedded pipeline can surface.
`assertionError` / `valueError` record the Python exception class raised
(`assert cond, ValueError(...)` raises `AssertionError` with the `ValueError`
object as its message). -/
inductive Err where
  | shape
  | cholesky
  | typeErr
  | assertionError
  | valueError
deriving DecidableEq, Repr

/-- A model parameter tensor: its flattened data and its `requires_grad`
flag (`true` = trainable, `false` = frozen). -/
structure Param where
  data : List ℚ
  requiresGrad : Bool
deriving DecidableEq, Repr

/-- Placeholder parameter for out-of-range indexing (never reached on
well-formed groups). -/
def pdef : Param := ⟨[], false⟩

/-- A model output: a single tensor or a tuple of tensors, as in the source
(`isinstance(outputs, tuple)`). -/
inductive TOut where
  | single : Vec → TOut
  | tup : List Vec → TOut
deriving DecidableEq, Repr

/-- Concatenation of the trainable parameters, in parameter order: the
column/coordinate order of the Jacobian and of the delta vector. -/
def trainCat (ps : List Param) : Vec :=
  ((ps.filter (fun p => p.requiresGrad)).map (fun p => p.data)).flatten

/-- Concatenation of the frozen parameters, in parameter order. -/
def frozenCat (ps : List Param) : Vec :=
  ((ps.filter (fun p => !p.requiresGrad)).map (fun p => p.data)).flatten

/-- Split a vector into consecutive chunks of the given sizes (the successful
branch of `torch.split`). -/
def splitGo : Vec → List Nat → List Vec
  | _, [] => []
  | v, n :: ns => v.take n :: splitGo (v.drop n) ns

/-- `torch.split(v, ns)` with a list of sizes: the sizes must sum exactly to
the length of `v`, otherwise a runtime shape error is raised. -/
def splitSizes (v : Vec) (ns : List Nat) : Except Err (List Vec) :=
  if ns.sum = v.length then .ok (splitGo v ns) else .error .shape

/-- The differentiable model collaborator (external to the optimizer, spec §6).
It is drawn from a quadratic-affine family over the flattened trainable
concatenation `θ`:
`flatOut θ = Wt·θ + Q·(θ ⊙ θ) + Wf·(frozen concatenation) + Wx·inputs + b`,
optionally split into a tuple of tensors by `outSizes`.  The family keeps the
Jacobian with respect to `θ` an explicit formula (`Wt + Q·diag(2θ)`) while
letting it genuinely depend on the current parameter values. -/
structure Model where
  Wt : Mat
  Q : Mat
  Wf : Mat
  Wx : Mat
  b : Vec
  outSizes : Option (List Nat)
deriving DecidableEq, Repr

/-- Entrywise sum of vectors. -/
def vadd (a b : Vec) : Vec := List.zipWith (· + ·) a b

/-- The flattened model output at the given parameter storage and inputs. -/
def forwardVec (m : Model) (ps : List Param) (x : Vec) : Vec :=
  let th := trainCat ps
  vadd (vadd (vadd (vadd (matVec m.Wt th) (matVec m.Q (th.map (fun t => t * t))))
    (matVec m.Wf (frozenCat ps))) (matVec m.Wx x)) m.b

/-- `self.model(inputs)`: the collaborator's forward pass, producing a single
tensor or a tuple according to `outSizes`. -/
def Model.forward (m : Model) (ps : List Param) (x : Vec) : TOut :=
  match m.outSizes with
  | none => .single (forwardVec m ps x)
  | some ns => .tup (splitGo (forwardVec m ps x) ns)

/-- Modelled from the spec: `modjac(model, inputs, flatten=True)` — repository
code imported from `pypose.optim.functional`, not present under `src/`.
Per §4.3 it differentiates the model's flattened output with respect to the
concatenation of trainable parameters; the function receives only the model
and the inputs, with no parameter-group selection, so the differentiation
ranges over all trainable parameters of the model.  For the quadratic-affine
collaborator family the flattened output is `Wt·θ + Q·(θ⊙θ) + const`, whose
Jacobian at `θ` is `Wt + Q·diag(2θ)` (column `j` of `Q` scaled by `2·θ_j`). -/
def modjac (m : Model) (ps : List Param) (_x : Vec) : Mat :=
  matAdd m.Wt (colScale m.Q ((trainCat ps).map (fun t => 2 * t)))

/-- The robust kernel collaborator: the elementwise kernel `f` together with
its derivative `deriv` (the spec's §4.2 reweighting factor is obtained by the
ambient autograd engine; here the collaborator supplies the derivative of the
scalarized kernel sum explicitly). -/
structure Kernel where
  f : ℚ → ℚ
  deriv : ℚ → ℚ

/-- The default identity kernel `ρ(x) = x` (ordinary least squares). -/
def identK : Kernel := ⟨fun x => x, fun _ => 1⟩

/-- Modelled from the spec: `K = jacobian(lambda x: kernel(x).sum(), E**2,
vectorize=True, strategy='forward-mode')` — the derivative of the summed
kernel with respect to each entry of `E²`, i.e. `K i = kernel'(E i ^ 2)`. -/
def kweights (k : Kernel) (E : Vec) : Vec := E.map (fun e => k.deriv (e * e))

/-- The scalar returned by `step`: `kernel(residual**2).sum()`. -/
def lossOf (k : Kernel) (E : Vec) : ℚ := (E.map (fun e => k.f (e * e))).sum

/-- Elementwise `t - o` for 1-D tensors with `torch` broadcasting: equal
lengths subtract pointwise, a length-1 operand broadcasts, anything else is a
runtime shape error. -/
def sub1 (t o : Vec) : Except Err Vec :=
  if t.length = o.length then .ok (List.zipWith (· - ·) t o)
  else if t.length = 1 then .ok (o.map (fun a => t.headD 0 - a))
  else if o.length = 1 then .ok (t.map (fun a => a - o.headD 0))
  else .error .shape

/-- `torch.cat([(t - o).view(-1,1) for t, o in zip(targets, outputs)])`:
`zip` pairs the two sequences positionally and stops at the shorter one. -/
def catResid : List Vec → List Vec → Except Err Vec
  | t :: ts, o :: os => do
    let e ← sub1 t o
    let rest ← catResid ts os
    pure (e ++ rest)
  | _, _ => .ok []

/-- Iterating a tensor (as Python `zip` does when `targets` is a single tensor
but `outputs` is a tuple) yields its leading-dimension slices; for a 1-D
tensor these are scalars, i.e. length-1 vectors here. -/
def asPairList : TOut → List Vec
  | .tup ts => ts
  | .single v => v.map (fun c => [c])

/-- `GaussNewton._residual(inputs, targets)` with the model output already
computed: the flattened error vector `E` (source lines 147–159).
`targets - outputs` with a tuple `targets` and a single-tensor `outputs` is a
Python `TypeError` (tuples do not support subtraction). -/
def residualE (out : TOut) (tgt : Option TOut) : Except Err Vec :=
  match tgt with
  | some tg =>
    match out with
    | .tup os => catResid (asPairList tg) os
    | .single o =>
      match tg with
      | .single t => sub1 t o
      | .tup _ => .error .typeErr
  | none =>
    match out with
    | .tup os => .ok ((os.map (fun o => o.map (fun a => -a))).flatten)
    | .single o => .ok (o.map (fun a => -a))

/-- `self._residual(inputs, targets)`: run the model, then form `E`. -/
def GaussNewton.residual (m : Model) (ps : List Param) (x : Vec) (tgt : Option TOut) :
    Except Err Vec :=
  residualE (m.forward ps x) tgt

/-- `K.T * J.T` — elementwise product of the row vector `K.T` (shape `1×M`)
with the matrix `Jt` (shape `N×M`), with `torch` broadcasting: matching widths
multiply each row of `Jt` entrywise by `K`; a length-1 `K` or width-1 `Jt`
broadcasts; anything else is a runtime shape error. -/
def bmulKJt (K : Vec) (Jt : Mat) : Except Err Mat :=
  if Jt.all (fun r => r.length = K.length) then
    .ok (Jt.map (fun r => List.zipWith (· * ·) K r))
  else if K.length = 1 then
    .ok (Jt.map (fun r => r.map (fun a => K.headD 0 * a)))
  else if Jt.all (fun r => r.length = 1) then
    .ok (Jt.map (fun r => K.map (fun c => c * r.headD 0)))
  else .error .shape

/-- Shape-checked matrix–vector product (`torch.matmul` of `(N,M)` with
`(M,1)` requires the inner dimensions to agree). -/
def tMatVec (A : Mat) (v : Vec) : Except Err Vec :=
  if A.all (fun r => r.length = v.length) then .ok (matVec A v) else .error .shape

/-- `K.T * J.T @ E` — the weighted gradient vector handed to every linear
solver (Python `*` and `@` associate left, so this is `(K.T * J.T) @ E`). -/
def tGrad (J : Mat) (K E : Vec) : Except Err Vec := do
  let P ← bmulKJt K (transposeM J)
  tMatVec P E

/-- `J.T @ J`, the undamped normal-equations matrix (square by
construction). -/
def gram (J : Mat) : Mat := matMulM (transposeM J) J

/-- `torch.clamp(x, lo, hi)`: `max` with the lower bound, then `min` with the
upper bound (so a `lo > hi` pair yields `hi`). -/
def clampQ (x lo hi : ℚ) : ℚ := min (max x lo) hi

/-- `A.diagonal().add_(damping * A.diagonal().clamp(min, max))` — the LM
in-place diagonal damping (source line 275): each diagonal entry `a` becomes
`a + damping * clamp a lo hi`; off-diagonal entries are untouched. -/
def dampA (A : Mat) (lam lo hi : ℚ) : Mat :=
  A.mapIdx (fun i r => r.mapIdx (fun j a => if j = i then a + lam * clampQ a lo hi else a))

/-- Modelled from the spec: `torch.linalg.cholesky` followed by
`cholesky_solve` (§4.4, LM mode) — factorization fails (a fatal error) iff
the symmetric matrix is not positive definite, otherwise forward/back
substitution returns the exact solution of `A x = b`.  Over exact rationals
positive definiteness is decided by Sylvester's criterion and the solution is
computed by the adjugate inverse, which agrees with the factor-and-substitute
result. -/
def cholSolve (A : Mat) (b : Vec) : Except Err Vec :=
  if posDefM A then .ok (matVec (adjInv A) b) else .error .cholesky

/-- Modelled from the spec: `torch.linalg.lstsq(A, b, rcond, driver)`
(§4.4, least-squares mode) — the least-squares solution of `A x = b`, solved
directly without materializing an inverse; the default drivers handle
rank-deficient `A` without raising.  For invertible `A` (the only case the
claims below distinguish) the solution is `A⁻¹ b`; the rank-deficient branch
is represented by the pseudo-inverse solution.  `rcond`/`driver` select the
LAPACK path and do not change the exact-arithmetic solution. -/
def lstsqSolve (A : Mat) (b : Vec) : Except Err Vec :=
  .ok (if detQ A = 0 then matVec (pinvM A) b else matVec (adjInv A) b)

/-- The Gauss-Newton delta for one parameter group (source lines 139–142):
`lstsq(J.T @ J, K.T * J.T @ E)` when `fast`, else
`(J.T @ J).pinverse() @ (K.T * J.T @ E)`. -/
def gnDelta (fast : Bool) (J : Mat) (K E : Vec) : Except Err Vec := do
  let g ← tGrad J K E
  if fast then lstsqSolve (gram J) g else pure (matVec (pinvM (gram J)) g)

/-- The Levenberg-Marquardt delta for one parameter group (source lines
274–276): damp `J.T @ J` on its diagonal, then
`(K.T * J.T @ E).cholesky_solve(cholesky(A))`. -/
def lmDelta (damping lo hi : ℚ) (J : Mat) (K E : Vec) : Except Err Vec := do
  let g ← tGrad J K E
  cholSolve (dampA (gram J) damping lo hi) g

/-- `[p.add_(d.view(p.shape)) for p, d in zip(pg['params'], D) if
p.requires_grad]` (source lines 144 / 278), with Python's in-place semantics:
`zip` pairs parameters with delta chunks positionally and stops at the
shorter sequence; a pair whose parameter is frozen is skipped (but its chunk
is consumed by `zip`); `d.view(p.shape)` raises a shape error when the chunk's
element count differs from the parameter's, aborting the comprehension and
leaving that parameter and all later ones unchanged (earlier in-place
additions persist).  Returns the resulting parameter list and the error, if
one was raised. -/
def applyDelta : List Param → List Vec → List Param × Option Err
  | ps, [] => (ps, none)
  | [], _ => ([], none)
  | p :: ps, d :: ds =>
    if p.requiresGrad then
      if d.length = p.data.length then
        let r := applyDelta ps ds
        (⟨List.zipWith (· + ·) p.data d, p.requiresGrad⟩ :: r.1, r.2)
      else (p :: ps, some .shape)
    else
      let r := applyDelta ps ds
      (p :: r.1, r.2)

/-- Write the (possibly partially) updated sublist of a parameter group back
into the parameter storage at the group's indices (the in-place mutation of
the shared tensors). -/
def writeBack (ps : List Param) (g : List Nat) (ns : List Param) : List Param :=
  (g.zip ns).foldl (fun acc in_p => acc.set in_p.1 in_p.2) ps

/-- The body of the per-group loop shared verbatim by `GaussNewton.step` and
`LevenbergMarquardt.step` (source lines 136–144 and 271–278; the two loops
differ only in how the delta is computed, abstracted as `delta`):
take the element counts of the group's trainable parameters, recompute the
Jacobian with `modjac`, solve for the delta, split it by those counts, and
add the chunks in place; a raised error leaves the parameter storage as
mutated so far. -/
def groupStep (m : Model) (x : Vec) (delta : Mat → Vec → Vec → Except Err Vec)
    (K E : Vec) (ps : List Param) (g : List Nat) : List Param × Option Err :=
  let sub := g.map (fun i => ps.getD i pdef)
  let numels := (sub.filter (fun p => p.requiresGrad)).map (fun p => p.data.length)
  let J := modjac m ps x
  match delta J K E with
  | .error e => (ps, some e)
  | .ok D =>
    match splitSizes D numels with
    | .error e => (ps, some e)
    | .ok Ds =>
      let r := applyDelta sub Ds
      (writeBack ps g r.1, r.2)

/-- The loop over the parameter groups: run `groupStep` on each group in
order, threading the in-place mutations; a raised error aborts the loop. -/
def optLoop (m : Model) (x : Vec) (delta : Mat → Vec → Vec → Except Err Vec)
    (K E : Vec) : List (List Nat) → List Param → List Param × Option Err
  | [], ps => (ps, none)
  | g :: gs, ps =>
    match groupStep m x delta K E ps g with
    | (ps2, some e) => (ps2, some e)
    | (ps2, none) => optLoop m x delta K E gs ps2

/-- Equality of step outcomes is decidable (used by concrete evaluations). -/
instance : DecidableEq (Except Err ℚ)
  | .ok a, .ok b => decidable_of_iff (a = b) (by simp)
  | .ok _, .error _ => .isFalse (by simp)
  | .error _, .ok _ => .isFalse (by simp)
  | .error a, .error b => decidable_of_iff (a = b) (by simp)

/-- The outcome of a `step` call: the parameter storage after the call (the
in-place mutations that happened, whether or not the call raised) and either
the returned loss or the raised error. -/
structure StepRes where
  params : List Param
  out : Except Err ℚ
deriving DecidableEq, Repr

/-- One optimization step (source lines 133–145 / 268–279, with the delta
computation abstracted): compute the residual `E` once, the kernel weights
`K` once, run the per-group loop, then recompute the residual and return
`kernel(E**2).sum()`. -/
def runStep (m : Model) (k : Kernel) (delta : Mat → Vec → Vec → Except Err Vec)
    (groups : List (List Nat)) (ps : List Param) (x : Vec) (tgt : Option TOut) : StepRes :=
  match GaussNewton.residual m ps x tgt with
  | .error e => ⟨ps, .error e⟩
  | .ok E =>
    let K := kweights k E
    match optLoop m x delta K E groups ps with
    | (ps2, some e) => ⟨ps2, .error e⟩
    | (ps2, none) =>
      match GaussNewton.residual m ps2 x tgt with
      | .error e => ⟨ps2, .error e⟩
      | .ok E2 => ⟨ps2, .ok (lossOf k E2)⟩

/-- `GaussNewton.step(inputs, targets)`. -/
def GaussNewton.step (m : Model) (k : Kernel) (fast : Bool) (groups : List (List Nat))
    (ps : List Param) (x : Vec) (tgt : Option TOut) : StepRes :=
  runStep m k (gnDelta fast) groups ps x tgt

/-- `LevenbergMarquardt.step(inputs, targets)` with the group's `damping`,
`min`, `max` options. -/
def LevenbergMarquardt.step (m : Model) (k : Kernel) (damping lo hi : ℚ)
    (groups : List (List Nat)) (ps : List Param) (x : Vec) (tgt : Option TOut) : StepRes :=
  runStep m k (lmDelta damping lo hi) groups ps x tgt

/-- The optimizer state produced by a successful `LevenbergMarquardt`
construction: the registered parameter groups (the base `Optimizer.__init__`
puts all of `model.parameters()` into one group) and the per-group options. -/
structure LMState where
  groups : List (List Nat)
  damping : ℚ
  lo : ℚ
  hi : ℚ
deriving DecidableEq, Repr

/-- `LevenbergMarquardt.__init__(model, damping, kernel, min, max)` (source
lines 205–209): `assert damping > 0, ValueError(...)` runs before
`Optimizer.__init__` registers any parameter group; a failing `assert`
raises `AssertionError` (with the `ValueError` object as its message), so no
group is registered on failure.  Defaults: `min=1e-6`, `max=1e32`. -/
def LevenbergMarquardt.init (ps : List Param) (damping : ℚ) (lo hi : ℚ) :
    Except Err LMState :=
  if 0 < damping then .ok ⟨[List.range ps.length], damping, lo, hi⟩
  else .error .assertionError

/-! ### General lemmas about the embedded linear algebra -/

theorem length_colJ (A : Mat) (j : Nat) : (colJ A j).length = A.length := by
  simp [colJ]

theorem length_row_transposeM (J : Mat) (r : Vec) (hr : r ∈ transposeM J) :
    r.length = J.length := by
  simp only [transposeM, List.mem_map] at hr
  obtain ⟨j, _, rfl⟩ := hr
  exact length_colJ J j

theorem dotQ_zip_mul (K r E : Vec) :
    dotQ (List.zipWith (· * ·) K r) E = dotQ r (List.zipWith (· * ·) K E) := by
  induction K generalizing r E with
  | nil => simp [dotQ]
  | cons k K ih =>
    cases r with
    | nil => simp [dotQ]
    | cons a r =>
      cases E with
      | nil => simp [dotQ]
      | cons e E =>
        simp only [List.zipWith_cons_cons, dotQ, List.sum_cons] at *
        rw [show k * a * e = a * (k * e) by ring]
        congr 1
        exact ih r E

theorem dotQ_zero_right (r E : Vec) (hE : ∀ e ∈ E, e = 0) : dotQ r E = 0 := by
  induction r generalizing E with
  | nil => simp [dotQ]
  | cons a r ih =>
    cases E with
    | nil => simp [dotQ]
    | cons e E =>
      have he : e = 0 := hE e (by simp)
      have hE' : ∀ x ∈ E, x = 0 := fun x hx => hE x (by simp [hx])
      simp only [dotQ, List.zipWith_cons_cons, List.sum_cons] at *
      rw [he, mul_zero, zero_add]
      exact ih E hE'

theorem matVec_zero_right (A : Mat) (v : Vec) (hv : ∀ e ∈ v, e = 0) :
    matVec A v = List.map (fun _ => (0 : ℚ)) A := by
  simp only [matVec]
  exact List.map_congr_left (fun r _ => dotQ_zero_right r v hv)

theorem tGrad_ok_of_lengths (J : Mat) (K E : Vec)
    (hK : K.length = J.length) (hE : E.length = J.length) :
    tGrad J K E =
      .ok (matVec ((transposeM J).map (fun r => List.zipWith (· * ·) K r)) E) := by
  have hrows : ∀ r ∈ transposeM J, r.length = K.length := by
    intro r hr
    rw [length_row_transposeM J r hr, hK]
  have hb : bmulKJt K (transposeM J) =
      .ok ((transposeM J).map (fun r => List.zipWith (· * ·) K r)) := by
    simp only [bmulKJt, List.all_eq_true, decide_eq_true_eq]
    rw [if_pos hrows]
  have hscaled : ∀ r ∈ (transposeM J).map (fun r => List.zipWith (· * ·) K r),
      r.length = E.length := by
    intro r hr
    simp only [List.mem_map] at hr
    obtain ⟨q, hq, rfl⟩ := hr
    simp [List.length_zipWith, hK, hE, length_row_transposeM J q hq]
  show (bmulKJt K (transposeM J)).bind (fun P => tMatVec P E) = _
  rw [hb]
  show tMatVec ((transposeM J).map (fun r => List.zipWith (· * ·) K r)) E = _
  simp only [tMatVec, List.all_eq_true, decide_eq_true_eq]
  rw [if_pos hscaled]

/-! ### C6 -/

/-- C6.  In both Gauss-Newton solve paths and the Levenberg-Marquardt path
the gradient vector handed to the solver is `K.T * J.T @ E` (the `tGrad`
definition, shared by `gnDelta` and `lmDelta`); whenever the kernel-weight
vector `K` and the residual `E` have the row count of `J` (as they do in the
pipeline, both having one entry per flattened output element), that vector
equals `Jᵗ (K ⊙ E)`: the per-residual weight multiplies each residual entry
before the column reduction `Jᵗ ·`. -/
theorem solved_rhs_is_Jt_of_weighted_residual (J : Mat) (K E : Vec)
    (hK : K.length = J.length) (hE : E.length = J.length) :
    tGrad J K E = .ok (matVec (transposeM J) (List.zipWith (· * ·) K E)) := by
  rw [tGrad_ok_of_lengths J K E hK hE]
  simp only [matVec, List.map_map, Except.ok.injEq]
  refine List.map_congr_left (fun r _ => ?_)
  exact dotQ_zip_mul K r E

/-- Witness for C6 at a concrete input. -/
theorem solved_rhs_is_Jt_of_weighted_residual_witness :
    tGrad [[1, 2], [3, 4]] [5, 7] [1, -1] =
      .ok (matVec (transposeM [[1, 2], [3, 4]]) (List.zipWith (· * ·) [5, 7] [1, -1])) :=
  solved_rhs_is_Jt_of_weighted_residual [[1, 2], [3, 4]] [5, 7] [1, -1] (by simp) (by simp)

/-! ### C7 -/

theorem length_gram (J : Mat) : (gram J).length = (transposeM J).length := by
  simp [gram, matMulM]

theorem length_row_gram (J : Mat) (r : Vec) (hr : r ∈ gram J) :
    r.length = (gram J).length := by
  simp only [gram, matMulM, List.mem_map] at hr
  obtain ⟨q, _, rfl⟩ := hr
  simp [length_gram, gram, matMulM]

theorem getElem_mapIdx' {α β : Type} (l : List α) (f : Nat → α → β) (i : Nat)
    (h : i < l.length) (h2 : i < (l.mapIdx f).length) :
    (l.mapIdx f)[i] = f i l[i] := by
  have := List.get_mapIdx l f i h
  simp only [List.get_eq_getElem] at this
  exact this

/-- C7.  In every `LevenbergMarquardt.step` call the matrix that is
Cholesky-factorized and solved is `dampA (gram J) λ lo hi` (see `lmDelta`);
entrywise this is exactly `JᵗJ` with `λ · clamp((JᵗJ)_ii, lo, hi)` added to
the `i`-th diagonal entry and all off-diagonal entries untouched. -/
theorem lm_damped_matrix_entries (J : Mat) (lam lo hi : ℚ) (i j : Nat)
    (hi1 : i < (gram J).length) (hj1 : j < (gram J).length) :
    ((dampA (gram J) lam lo hi).getD i []).getD j 0 =
      ((gram J).getD i []).getD j 0 +
        (if j = i then lam * clampQ (((gram J).getD i []).getD i 0) lo hi else 0) := by
  have hrow : (gram J)[i].length = (gram J).length := by
    exact length_row_gram J _ (List.getElem_mem hi1)
  have hlen : (dampA (gram J) lam lo hi).length = (gram J).length := by
    simp [dampA, List.length_mapIdx]
  have houter : (dampA (gram J) lam lo hi).getD i [] =
      ((gram J)[i]).mapIdx (fun j a => if j = i then a + lam * clampQ a lo hi else a) := by
    rw [List.getD_eq_getElem _ _ (by rw [hlen]; exact hi1)]
    exact getElem_mapIdx' (gram J) _ i hi1 _
  have hj2 : j < (gram J)[i].length := by rw [hrow]; exact hj1
  have hinner : (((gram J)[i]).mapIdx
      (fun j a => if j = i then a + lam * clampQ a lo hi else a)).getD j 0 =
      (if j = i then (gram J)[i][j] + lam * clampQ ((gram J)[i][j]) lo hi
        else (gram J)[i][j]) := by
    rw [List.getD_eq_getElem _ _ (by rw [List.length_mapIdx]; exact hj2)]
    exact getElem_mapIdx' ((gram J)[i]) _ j hj2 _
  rw [houter, hinner]
  have hgd : (gram J).getD i [] = (gram J)[i] := List.getD_eq_getElem _ _ hi1
  rw [hgd]
  by_cases h : j = i
  · subst h
    rw [if_pos rfl, if_pos rfl, List.getD_eq_getElem _ _ hj2]
  · rw [if_neg h, if_neg h, add_zero, List.getD_eq_getElem _ _ hj2]

/-- Witness for C7 at a concrete input (`J = [[1,2],[3,4]]`, diagonal entry). -/
theorem lm_damped_matrix_entries_witness :
    ((dampA (gram [[1, 2], [3, 4]]) 2 0 100).getD 0 []).getD 0 0 =
      ((gram [[1, 2], [3, 4]]).getD 0 []).getD 0 0 +
        (if 0 = 0 then 2 * clampQ (((gram [[1, 2], [3, 4]]).getD 0 []).getD 0 0) 0 100
          else 0) := by
  refine lm_damped_matrix_entries [[1, 2], [3, 4]] 2 0 100 0 0 ?_ ?_ <;>
    norm_num [gram, matMulM, transposeM, widthM, colJ, List.range_succ]

/-! ### C5 -/

/-- C5 counterexample.  At `damping = -1` (with the default `min = 1e-6`,
`max = 1e32`) the `LevenbergMarquardt` construction does fail before any
parameter group is registered, but the exception raised by
`assert damping > 0, ValueError(...)` is an `AssertionError` (the
`ValueError` object is merely its message), not a ValueError-class
condition as the claim states. -/
theorem lm_init_assertionerror_not_valueerror_cex :
    LevenbergMarquardt.init [⟨[1], true⟩] (-1) (1 / 1000000) (10 ^ 32) =
        .error .assertionError ∧
      Err.assertionError ≠ Err.valueError := by
  constructor
  · norm_num [LevenbergMarquardt.init]
  · intro h
    cases h

/-- C5 amended.  For every `damping ≤ 0`, `LevenbergMarquardt` construction
fails immediately — raising an `AssertionError` whose message wraps a
`ValueError` — with no parameter group registered (the error carries no
state); for every `damping > 0` construction succeeds, registering the
single all-parameters group. -/
theorem lm_init_validates_damping (ps : List Param) (damping lo hi : ℚ) :
    (damping ≤ 0 →
        LevenbergMarquardt.init ps damping lo hi = .error .assertionError) ∧
      (0 < damping →
        LevenbergMarquardt.init ps damping lo hi =
          .ok ⟨[List.range ps.length], damping, lo, hi⟩) := by
  constructor
  · intro h
    simp only [LevenbergMarquardt.init, if_neg (not_lt.mpr h)]
  · intro h
    simp only [LevenbergMarquardt.init, if_pos h]

/-- Witness for C5 at concrete inputs on both sides of the bound. -/
theorem lm_init_validates_damping_witness :
    LevenbergMarquardt.init [⟨[2], true⟩] (-2) 0 1 = .error .assertionError ∧
      LevenbergMarquardt.init [⟨[2], true⟩] 3 0 1 = .ok ⟨[[0]], 3, 0, 1⟩ := by
  constructor
  · exact (lm_init_validates_damping [⟨[2], true⟩] (-2) 0 1).1 (by norm_num)
  · have := (lm_init_validates_damping [⟨[2], true⟩] 3 0 1).2 (by norm_num)
    simpa [List.range_succ] using this

/-! ### C8 -/

/-- The residual exactly as the spec words it (§4.1), for the
matching-arity, matching-shape case: each target/output pair contributes
`target − output` flattened to a column, concatenated across the tuple in
declaration order.  Spec-side definition, used only for comparison with the
source translation `residualE`. -/
def residualSpec (outs tgts : List Vec) : Vec :=
  (List.zipWith (fun t o => List.zipWith (· - ·) t o) tgts outs).flatten

/-- C8.  The source residual agrees with the spec's description: with targets
of matching arity and shapes, each pair yields `target − output` flattened
and concatenated in declaration order; with no targets the negated flattened
outputs are concatenated; and a single (non-tuple) output follows the same
rule. -/
theorem residual_matches_spec (outs tgts : List Vec) (o t : Vec)
    (hshapes : List.Forall₂ (fun tg ou => tg.length = ou.length) tgts outs)
    (hlen : t.length = o.length) :
    residualE (.tup outs) (some (.tup tgts)) = .ok (residualSpec outs tgts) ∧
      residualE (.tup outs) none = .ok ((outs.map (fun ou => ou.map (fun a => -a))).flatten) ∧
      residualE (.single o) (some (.single t)) = .ok (List.zipWith (· - ·) t o) ∧
      residualE (.single o) none = .ok (o.map (fun a => -a)) := by
  refine ⟨?_, ?_, ?_, ?_⟩
  · show catResid (asPairList (.tup tgts)) outs = .ok (residualSpec outs tgts)
    simp only [asPairList]
    induction hshapes with
    | nil => simp [catResid, residualSpec]
    | cons h hs ih =>
      rename_i tg ou tgs ous
      show (sub1 tg ou).bind _ = _
      rw [show sub1 tg ou = .ok (List.zipWith (· - ·) tg ou) by
        simp only [sub1, if_pos h]]
      show (catResid tgs ous).bind _ = _
      rw [ih]
      show Except.ok _ = _
      simp [residualSpec]
  · simp [residualE]
  · show sub1 t o = _
    simp only [sub1, if_pos hlen]
  · simp [residualE]

/-- Witness for C8 at a concrete input: a 2-tuple of outputs of sizes 2 and
1 with matching targets, plus a single-tensor pair. -/
theorem residual_matches_spec_witness :
    residualE (.tup [[1, 2], [3]]) (some (.tup [[5, 5], [9]])) =
        .ok (residualSpec [[1, 2], [3]] [[5, 5], [9]]) ∧
      residualE (.tup [[1, 2], [3]]) none =
        .ok (([[1, 2], [3]].map (fun ou => ou.map (fun a => -a))).flatten) ∧
      residualE (.single [4, 6]) (some (.single [1, 1])) =
        .ok (List.zipWith (· - ·) [1, 1] [4, 6]) ∧
      residualE (.single [4, 6]) none = .ok ([4, 6].map (fun a => -a)) := by
  refine residual_matches_spec [[1, 2], [3]] [[5, 5], [9]] [4, 6] [1, 1] ?_ ?_
  · refine List.Forall₂.cons (by simp) (List.Forall₂.cons (by simp) List.Forall₂.nil)
  · simp

/-! ### C3 -/

/-- Model for the C3 counterexample: one trainable scalar parameter,
`forward θ = (θ,)` — a 1-tuple output. -/
def mC3 : Model := ⟨[[1]], [[0]], [[]], [[]], [0], some [1]⟩

/-- C3 counterexample.  The model output is the 1-tuple `([2],)` but the
supplied targets form a 2-tuple — the arities disagree — yet the step call
does not fail: Python's `zip` silently drops the extra target, the solve
proceeds, the parameter is updated in place (from `2` to `0`), and the loss
`0` is returned.  This contradicts the claim that every arity disagreement
fails with a ShapeMismatch error and leaves parameters unchanged. -/
theorem arity_mismatch_silently_updates_cex :
    GaussNewton.step mC3 identK false [[0]] [⟨[2], true⟩] [] (some (.tup [[0], [99]])) =
        ⟨[⟨[0], true⟩], .ok 0⟩ ∧
      mC3.forward [⟨[2], true⟩] [] = .tup [[2]] ∧
      ([[0], [99]] : List Vec).length = 2 := by
  refine ⟨?_, ?_, by simp⟩
  · norm_num [GaussNewton.step, runStep, GaussNewton.residual, residualE, Model.forward,
      forwardVec, trainCat, frozenCat, vadd, matVec, dotQ, sub1, kweights, identK, mC3,
      optLoop, groupStep, modjac, matAdd, colScale, gnDelta, tGrad, bmulKJt, tMatVec, transposeM,
      widthM, colJ, gram, matMulM, pinvM, detQ, detFuel, signQ, adjInv, minorM, splitSizes,
      splitGo, applyDelta, writeBack, lossOf, pdef, catResid, asPairList,
      List.range_succ, Function.comp, Except.map, bind, Except.bind, pure, Except.pure]
  · norm_num [Model.forward, forwardVec, trainCat, frozenCat, vadd, matVec, dotQ, mC3,
      splitGo]

/-- C3 amended.  Tuple-arity and shape disagreements are not validated as
such: excess targets are silently dropped by `zip` and broadcast-compatible
shape disagreements are silently accepted (the update proceeds, see the
counterexample).  What does hold: whenever the residual computation itself
raises (a non-broadcastable shape disagreement between a target and its
paired output, or a tuple target against a single-tensor output), the step
call of either optimizer fails with that error before any parameter is
touched. -/
theorem residual_error_aborts_before_update (m : Model) (k : Kernel) (fast : Bool)
    (damping lo hi : ℚ) (groups : List (List Nat)) (ps : List Param) (x : Vec)
    (tgt : Option TOut) (e : Err)
    (h : GaussNewton.residual m ps x tgt = .error e) :
    GaussNewton.step m k fast groups ps x tgt = ⟨ps, .error e⟩ ∧
      LevenbergMarquardt.step m k damping lo hi groups ps x tgt = ⟨ps, .error e⟩ := by
  constructor
  · simp only [GaussNewton.step, runStep, h]
  · simp only [LevenbergMarquardt.step, runStep, h]

/-- Witness for C3's amended theorem: a target of length 3 against an output
of length 2 is not broadcastable, so the residual raises and the step call
returns the shape error with the parameters untouched. -/
theorem residual_error_aborts_before_update_witness :
    GaussNewton.step ⟨[[1], [0]], [[0], [0]], [[], []], [[], []], [0, 0], none⟩ identK false
        [[0]] [⟨[2], true⟩] [] (some (.single [1, 1, 1])) =
        ⟨[⟨[2], true⟩], .error .shape⟩ ∧
      LevenbergMarquardt.step ⟨[[1], [0]], [[0], [0]], [[], []], [[], []], [0, 0], none⟩
        identK 1 0 10 [[0]] [⟨[2], true⟩] [] (some (.single [1, 1, 1])) =
        ⟨[⟨[2], true⟩], .error .shape⟩ := by
  refine residual_error_aborts_before_update _ identK false 1 0 10 [[0]] [⟨[2], true⟩] []
    (some (.single [1, 1, 1])) .shape ?_
  norm_num [GaussNewton.residual, residualE, Model.forward, forwardVec, trainCat, frozenCat,
    vadd, matVec, dotQ, sub1]

/-! ### C1 -/

/-- Parameter storage for C1: a frozen parameter first, then a trainable
one — the ordered parameter list interleaves frozen before trainable. -/
def psC1 : List Param := [⟨[5], false⟩, ⟨[2], true⟩]

/-- Model for C1: `forward θ = θ` on the single trainable scalar (the frozen
parameter does not influence the output). -/
def mC1 : Model := ⟨[[1]], [[0]], [[0]], [[]], [0], none⟩

/-- C1.  Evaluation of `GaussNewton.step` at the failing input: the group's
parameter list is `[frozen [5], trainable [2]]` with target `0`, so the
residual is `[-2]` and the solved delta is the nonzero `[-2]` — yet the step
returns successfully with BOTH parameters unchanged (loss `4`).  The split
sizes `numels = [1]` count only the trainable parameter, but
`zip(pg['params'], D)` pairs the single delta chunk with the frozen
parameter positionally; the `requires_grad` filter then drops that pair, and
the trainable parameter — which the claim says receives the slice — gets no
update at all. -/
theorem frozen_interleaved_trainable_gets_no_update :
    GaussNewton.residual mC1 psC1 [] (some (.single [0])) = .ok [-2] ∧
      gnDelta false (modjac mC1 psC1 []) (kweights identK [-2]) [-2] = .ok [-2] ∧
      GaussNewton.step mC1 identK false [[0, 1]] psC1 [] (some (.single [0])) =
        ⟨psC1, .ok 4⟩ := by
  refine ⟨?_, ?_, ?_⟩
  · norm_num [GaussNewton.residual, residualE, Model.forward, forwardVec, trainCat,
      frozenCat, vadd, matVec, dotQ, sub1, mC1, psC1]
  · norm_num [gnDelta, tGrad, bmulKJt, tMatVec, transposeM, widthM, colJ, gram, matMulM,
      pinvM, detQ, detFuel, signQ, adjInv, minorM, matVec, dotQ, modjac, matAdd, colScale,
      trainCat, kweights, identK, mC1, psC1, List.range_succ, Function.comp, Except.map,
      bind, Except.bind, pure, Except.pure]
  · norm_num [GaussNewton.step, runStep, GaussNewton.residual, residualE, Model.forward,
      forwardVec, trainCat, frozenCat, vadd, matVec, dotQ, sub1, kweights, identK, mC1,
      psC1, optLoop, groupStep, modjac, matAdd, colScale, gnDelta, tGrad, bmulKJt, tMatVec, transposeM,
      widthM, colJ, gram, matMulM, pinvM, detQ, detFuel, signQ, adjInv, minorM, splitSizes,
      splitGo, applyDelta, writeBack, lossOf, pdef, List.range_succ, Function.comp,
      Except.map, bind, Except.bind, pure, Except.pure]

/-! ### C2 -/

/-- Model for C2: two trainable scalar parameters, `forward θ = θ`
(`Wt` the 2×2 identity). -/
def mC2 : Model := ⟨[[1, 0], [0, 1]], [[0, 0], [0, 0]], [[], []], [[], []], [0, 0], none⟩

/-- Parameter storage for C2: two trainable scalars, placed in two separate
parameter groups. -/
def psC2 : List Param := [⟨[1], true⟩, ⟨[1], true⟩]

/-- C2 counterexample.  With the model's two trainable scalars divided among
two parameter groups, the Jacobian computed inside each group's iteration is
`modjac(model, inputs)` — it receives no group information and has `2`
columns (the model's total trainable count), not the `1` column of the
group being solved; consequently the first group's solve produces a
length-2 delta, `torch.split` fails on the group's `numels = [1]`, and the
step call errors instead of ever using a group-restricted Jacobian.  This
refutes the claim that each group's solve uses an M×N Jacobian with N the
group's own trainable count. -/
theorem per_group_jacobian_not_group_restricted_cex :
    widthM (modjac mC2 psC2 []) = 2 ∧
      ((psC2.getD 0 pdef).data.length = 1 ∧ (psC2.getD 1 pdef).data.length = 1) ∧
      GaussNewton.step mC2 identK false [[0], [1]] psC2 [] (some (.single [0, 0])) =
        ⟨psC2, .error .shape⟩ := by
  refine ⟨?_, ⟨by norm_num [psC2, pdef], by norm_num [psC2, pdef]⟩, ?_⟩
  · norm_num [widthM, modjac, matAdd, colScale, trainCat, mC2, psC2]
  · norm_num [GaussNewton.step, runStep, GaussNewton.residual, residualE, Model.forward,
      forwardVec, trainCat, frozenCat, vadd, matVec, dotQ, sub1, kweights, identK, mC2,
      psC2, optLoop, groupStep, modjac, matAdd, colScale, gnDelta, tGrad, bmulKJt, tMatVec, transposeM,
      widthM, colJ, gram, matMulM, pinvM, detQ, detFuel, signQ, adjInv, minorM, splitSizes,
      splitGo, applyDelta, writeBack, lossOf, pdef, List.range_succ, Function.comp,
      Except.map, bind, Except.bind, pure, Except.pure]

/-- C2 amended.  The Jacobian used in every group's iteration is computed
over ALL trainable parameters of the model (`modjac` receives no group
selection): for a well-shaped model its column count is the model's total
count of scalar trainable entries — the sum of the trainable parameters'
element counts in parameter-concatenation order.  This coincides with the
claim's per-group description exactly when a single group holds all the
model's parameters (the default construction); with several trainable
groups the per-group split fails instead (see the counterexample). -/
theorem modjac_columns_are_total_trainable_count (m : Model) (ps : List Param) (x : Vec)
    (hM : 0 < m.Wt.length) (hQM : m.Q.length = m.Wt.length)
    (hWt : ∀ r ∈ m.Wt, r.length = (trainCat ps).length)
    (hQ : ∀ r ∈ m.Q, r.length = (trainCat ps).length) :
    widthM (modjac m ps x) = (trainCat ps).length ∧
      (trainCat ps).length =
        ((ps.filter (fun p => p.requiresGrad)).map (fun p => p.data.length)).sum := by
  constructor
  · obtain ⟨r, W, hW⟩ : ∃ r W, m.Wt = r :: W := by
      cases hWt' : m.Wt with
      | nil => rw [hWt'] at hM; simp at hM
      | cons r W => exact ⟨r, W, rfl⟩
    obtain ⟨q, Qr, hQr⟩ : ∃ q Qr, m.Q = q :: Qr := by
      cases hQ' : m.Q with
      | nil => rw [hQ', hW] at hQM; simp at hQM
      | cons q Qr => exact ⟨q, Qr, rfl⟩
    have hr : r.length = (trainCat ps).length := hWt r (by rw [hW]; exact List.mem_cons_self r W)
    have hq : q.length = (trainCat ps).length := hQ q (by rw [hQr]; exact List.mem_cons_self q Qr)
    simp [modjac, matAdd, colScale, widthM, hW, hQr, List.length_zipWith, hr, hq]
  · simp only [trainCat, List.length_flatten, List.map_map]
    rfl

/-- Witness for C2's amended theorem at a concrete well-shaped model. -/
theorem modjac_columns_are_total_trainable_count_witness :
    widthM (modjac mC2 psC2 []) = (trainCat psC2).length ∧
      (trainCat psC2).length =
        ((psC2.filter (fun p => p.requiresGrad)).map (fun p => p.data.length)).sum := by
  refine modjac_columns_are_total_trainable_count mC2 psC2 [] ?_ ?_ ?_ ?_
  · norm_num [mC2]
  · norm_num [mC2]
  · intro r hr
    have : r = [1, 0] ∨ r = [0, 1] := by
      simpa [mC2] using hr
    rcases this with h | h <;> simp [h, trainCat, psC2]
  · intro r hr
    have : r = [0, 0] ∨ r = [0, 0] := by
      simpa [mC2] using hr
    rcases this with h | h <;> simp [h, trainCat, psC2]

/-! ### C4 -/

theorem applyDelta_error_is_shape :
    ∀ (ps : List Param) (ds : List Vec) (e : Err),
      (applyDelta ps ds).2 = some e → e = .shape := by
  intro ps
  induction ps with
  | nil => intro ds e h; cases ds <;> simp [applyDelta] at h
  | cons p ps ih =>
    intro ds e h
    cases ds with
    | nil => simp [applyDelta] at h
    | cons d ds =>
      by_cases hg : p.requiresGrad
      · by_cases hl : d.length = p.data.length
        · simp only [applyDelta, if_pos hg, if_pos hl] at h
          exact ih ds e h
        · simp only [applyDelta, if_pos hg, if_neg hl, Option.some.injEq] at h
          exact h.symm
      · simp only [applyDelta, if_neg hg] at h
        exact ih ds e h

theorem sub1_error_is_shape (t o : Vec) (e : Err) (h : sub1 t o = .error e) : e = .shape := by
  simp only [sub1] at h
  split at h
  · cases h
  · split at h
    · cases h
    · split at h
      · cases h
      · cases h; rfl

theorem catResid_error_is_shape :
    ∀ (ts os : List Vec) (e : Err), catResid ts os = .error e → e = .shape := by
  intro ts
  induction ts with
  | nil => intro os e h; cases os <;> simp [catResid] at h
  | cons t ts ih =>
    intro os e h
    cases os with
    | nil => simp [catResid] at h
    | cons o os =>
      rw [show catResid (t :: ts) (o :: os) =
        (sub1 t o).bind (fun x =>
          (catResid ts os).bind (fun rest => pure (x ++ rest))) from rfl] at h
      cases hs : sub1 t o with
      | error e2 =>
        rw [hs] at h
        cases h
        exact sub1_error_is_shape t o _ hs
      | ok v =>
        rw [hs] at h
        cases hc : catResid ts os with
        | error e3 =>
          rw [hc] at h
          cases h
          exact ih os _ hc
        | ok rest => rw [hc] at h; cases h

theorem residualE_error_not_cholesky (out : TOut) (tgt : Option TOut) (e : Err)
    (h : residualE out tgt = .error e) : e ≠ .cholesky := by
  cases tgt with
  | none => cases out <;> simp [residualE] at h
  | some tg =>
    cases out with
    | tup os =>
      have : e = .shape := catResid_error_is_shape (asPairList tg) os e h
      simp [this]
    | single o =>
      cases tg with
      | single t =>
        have : e = .shape := sub1_error_is_shape t o e h
        simp [this]
      | tup _ =>
        simp only [residualE, Except.error.injEq] at h
        simp [← h]

theorem groupStep_cholesky (m : Model) (x : Vec) (damping lo hi : ℚ)
    (K E : Vec) (ps : List Param) (g : List Nat)
    (h : (groupStep m x (lmDelta damping lo hi) K E ps g).2 = some .cholesky) :
    groupStep m x (lmDelta damping lo hi) K E ps g = (ps, some .cholesky) := by
  simp only [groupStep] at h ⊢
  cases hd : lmDelta damping lo hi (modjac m ps x) K E with
  | error e =>
    simp only [hd, Option.some.injEq] at h
    simp [hd, h]
  | ok D =>
    simp only [hd] at h ⊢
    cases hs : splitSizes D (((g.map (fun i => ps.getD i pdef)).filter
        (fun p => p.requiresGrad)).map (fun p => p.data.length)) with
    | error e =>
      simp only [hs, Option.some.injEq] at h
      exact absurd h.symm (by
        have : e = Err.shape := by
          simp only [splitSizes] at hs
          split at hs
          · cases hs
          · cases hs; rfl
        simp [this])
    | ok Ds =>
      simp only [hs] at h
      have hsh := applyDelta_error_is_shape (g.map (fun i => ps.getD i pdef)) Ds _ h
      exact absurd hsh (by decide)

theorem optLoop_single_group_cholesky (m : Model) (x : Vec) (damping lo hi : ℚ)
    (K E : Vec) (g : List Nat) (ps : List Param)
    (h : (optLoop m x (lmDelta damping lo hi) K E [g] ps).2 = some .cholesky) :
    optLoop m x (lmDelta damping lo hi) K E [g] ps = (ps, some .cholesky) := by
  simp only [optLoop] at h ⊢
  cases hg : groupStep m x (lmDelta damping lo hi) K E ps g with
  | mk ps2 oe =>
    simp only [hg] at h ⊢
    cases oe with
    | none => simp only [optLoop] at h; cases h
    | some e =>
      simp only [Option.some.injEq] at h
      subst h
      have := groupStep_cholesky m x damping lo hi K E ps g (by rw [hg])
      rw [hg] at this
      simp only [Prod.mk.injEq] at this
      simp [this.1]

/-- C4 amended.  A linear-solver (Cholesky) failure is raised strictly
before any in-place parameter addition: in a single-group configuration, if
`LevenbergMarquardt.step` fails with the Cholesky error then the parameter
storage is bit-for-bit untouched.  (Full whole-group-or-nothing atomicity
does not hold for the delta application itself — see the counterexample,
where a shape error during application follows a successful in-place
addition.) -/
theorem cholesky_failure_leaves_parameters_untouched (m : Model) (k : Kernel)
    (damping lo hi : ℚ) (g : List Nat) (ps : List Param) (x : Vec) (tgt : Option TOut)
    (h : (LevenbergMarquardt.step m k damping lo hi [g] ps x tgt).out = .error .cholesky) :
    (LevenbergMarquardt.step m k damping lo hi [g] ps x tgt).params = ps := by
  unfold LevenbergMarquardt.step runStep at h ⊢
  cases hres : GaussNewton.residual m ps x tgt with
  | error e => simp [hres]
  | ok E =>
    simp only [hres] at h ⊢
    cases hL : optLoop m x (lmDelta damping lo hi) (kweights k E) E [g] ps with
    | mk ps2 oe =>
      simp only [hL] at h ⊢
      cases oe with
      | some e =>
        simp only [Except.error.injEq] at h
        subst h
        have := optLoop_single_group_cholesky m x damping lo hi (kweights k E) E g ps
          (by rw [hL])
        rw [hL] at this
        simp only [Prod.mk.injEq] at this
        simp [this.1]
      | none =>
        cases hfin : GaussNewton.residual m ps2 x tgt with
        | error e =>
          simp only [hfin, Except.error.injEq] at h
          exact absurd h (residualE_error_not_cholesky _ _ _ hfin)
        | ok E2 =>
          simp only [hfin] at h
          cases h

set_option maxHeartbeats 2000000 in
/-- C4 counterexample.  A single parameter group
`[trainable [2], frozen [9], trainable [2], trainable [2,2]]` with the
identity model and zero targets: the LM solve succeeds (delta
`[-1,-1,-1,-1]`), the first trainable parameter is updated in place to `[1]`,
and only then does `d.view(p.shape)` fail — the `zip` misalignment caused by
the interleaved frozen parameter hands the third parameter a chunk of the
wrong size.  The call fails with a shape error AFTER a parameter of the
group was modified, so "either the whole group updates or the call fails
before any parameter of that group is modified" is false on the code. -/
theorem partial_update_on_apply_failure_cex :
    LevenbergMarquardt.step ⟨[[1, 0, 0, 0], [0, 1, 0, 0], [0, 0, 1, 0], [0, 0, 0, 1]],
        [[0, 0, 0, 0], [0, 0, 0, 0], [0, 0, 0, 0], [0, 0, 0, 0]],
        [[], [], [], []], [[], [], [], []], [0, 0, 0, 0], none⟩
      identK 1 0 10 [[0, 1, 2, 3]]
      [⟨[2], true⟩, ⟨[9], false⟩, ⟨[2], true⟩, ⟨[2, 2], true⟩] []
      (some (.single [0, 0, 0, 0])) =
      ⟨[⟨[1], true⟩, ⟨[9], false⟩, ⟨[2], true⟩, ⟨[2, 2], true⟩], .error .shape⟩ ∧
    (⟨[1], true⟩ : Param) ≠ ⟨[2], true⟩ := by
  constructor
  · norm_num [LevenbergMarquardt.step, runStep, GaussNewton.residual, residualE,
      Model.forward, forwardVec, trainCat, frozenCat, vadd, matVec, dotQ, sub1, kweights,
      identK, optLoop, groupStep, modjac, matAdd, colScale, lmDelta, tGrad, bmulKJt, tMatVec,
      transposeM, widthM, colJ, gram, matMulM, dampA, clampQ, cholSolve, posDefM, detQ,
      detFuel, signQ, adjInv, minorM, splitSizes, splitGo, applyDelta, writeBack, lossOf,
      pdef, List.range_succ, Function.comp, Except.map, bind, Except.bind, pure,
      Except.pure]
  · intro h
    simp at h

/-- Witness for C4's amended theorem: a constant model makes `JᵗJ = [[0]]`,
and with `min = 0` the damped matrix stays `[[0]]` — not positive definite —
so Cholesky factorization fails and the parameters are untouched. -/
theorem cholesky_failure_leaves_parameters_untouched_witness :
    (LevenbergMarquardt.step ⟨[[0]], [[0]], [[]], [[]], [3], none⟩ identK 1 0 10 [[0]]
        [⟨[1], true⟩] [] none).out = .error .cholesky ∧
      (LevenbergMarquardt.step ⟨[[0]], [[0]], [[]], [[]], [3], none⟩ identK 1 0 10 [[0]]
        [⟨[1], true⟩] [] none).params = [⟨[1], true⟩] := by
  have h : (LevenbergMarquardt.step ⟨[[0]], [[0]], [[]], [[]], [3], none⟩ identK 1 0 10
      [[0]] [⟨[1], true⟩] [] none).out = .error .cholesky := by
    norm_num [LevenbergMarquardt.step, runStep, GaussNewton.residual, residualE,
      Model.forward, forwardVec, trainCat, frozenCat, vadd, matVec, dotQ, sub1, kweights,
      identK, optLoop, groupStep, modjac, matAdd, colScale, lmDelta, tGrad, bmulKJt, tMatVec,
      transposeM, widthM, colJ, gram, matMulM, dampA, clampQ, cholSolve, posDefM, detQ,
      detFuel, signQ, adjInv, minorM, splitSizes, splitGo, applyDelta, writeBack, lossOf,
      pdef, List.range_succ, Function.comp, Except.map, bind, Except.bind, pure,
      Except.pure]
  exact ⟨h, cholesky_failure_leaves_parameters_untouched _ identK 1 0 10 [0]
    [⟨[1], true⟩] [] none h⟩

/-! ### C9 -/

theorem length_transposeM (A : Mat) : (transposeM A).length = widthM A := by
  simp [transposeM]

theorem length_modjac (m : Model) (ps : List Param) (x : Vec)
    (hQM : m.Q.length = m.Wt.length) : (modjac m ps x).length = m.Wt.length := by
  simp [modjac, matAdd, colScale, List.length_zipWith, hQM]

theorem widthM_modjac_eq (m : Model) (ps : List Param) (x : Vec)
    (hM : 0 < m.Wt.length) (hQM : m.Q.length = m.Wt.length)
    (hWt : ∀ r ∈ m.Wt, r.length = (trainCat ps).length)
    (hQ : ∀ r ∈ m.Q, r.length = (trainCat ps).length) :
    widthM (modjac m ps x) = (trainCat ps).length := by
  obtain ⟨r, W, hW⟩ : ∃ r W, m.Wt = r :: W := by
    cases hWt' : m.Wt with
    | nil => rw [hWt'] at hM; simp at hM
    | cons r W => exact ⟨r, W, rfl⟩
  obtain ⟨q, Qr, hQr⟩ : ∃ q Qr, m.Q = q :: Qr := by
    cases hQ' : m.Q with
    | nil => rw [hQ', hW] at hQM; simp at hQM
    | cons q Qr => exact ⟨q, Qr, rfl⟩
  have hr : r.length = (trainCat ps).length := hWt r (by rw [hW]; exact List.mem_cons_self r W)
  have hq : q.length = (trainCat ps).length := hQ q (by rw [hQr]; exact List.mem_cons_self q Qr)
  simp [modjac, matAdd, colScale, widthM, hW, hQr, List.length_zipWith, hr, hq]

theorem trainCat_length_sum (ps : List Param) :
    (trainCat ps).length =
      ((ps.filter (fun p => p.requiresGrad)).map (fun p => p.data.length)).sum := by
  simp only [trainCat, List.length_flatten, List.map_map]
  rfl

theorem map_const_zero_eq_replicate (A : Mat) :
    A.map (fun _ => (0 : ℚ)) = List.replicate A.length 0 := by
  induction A with
  | nil => rfl
  | cons r A ih => simp [List.replicate_succ, ih]

theorem matVec_zeros (A : Mat) (v : Vec) (hv : ∀ e ∈ v, e = 0) :
    matVec A v = List.replicate A.length 0 := by
  rw [matVec_zero_right A v hv, map_const_zero_eq_replicate]

theorem length_adjInv (A : Mat) : (adjInv A).length = A.length := by
  simp [adjInv]

theorem length_pinvM (A : Mat) : (pinvM A).length = A.length := by
  unfold pinvM
  split
  · simp
  · exact length_adjInv A

theorem length_dampA (A : Mat) (lam lo hi : ℚ) : (dampA A lam lo hi).length = A.length := by
  simp [dampA, List.length_mapIdx]

theorem splitGo_replicate (ns : List Nat) (total : Nat) (h : ns.sum ≤ total) :
    splitGo (List.replicate total (0 : ℚ)) ns = ns.map (fun n => List.replicate n 0) := by
  induction ns generalizing total with
  | nil => simp [splitGo]
  | cons n ns ih =>
    have hn : n ≤ total := le_trans (Nat.le_add_right n ns.sum) (by simpa using h)
    have hrest : ns.sum ≤ total - n := by
      simp only [List.sum_cons] at h
      omega
    simp only [splitGo, List.take_replicate, List.drop_replicate, List.map_cons]
    rw [Nat.min_eq_left hn, ih (total - n) hrest]

theorem zipWith_add_zeros (v : Vec) :
    List.zipWith (· + ·) v (List.replicate v.length 0) = v := by
  induction v with
  | nil => rfl
  | cons a v ih => simp [List.replicate_succ, ih]

theorem applyDelta_zeros (ps : List Param) (h : ∀ p ∈ ps, p.requiresGrad = true) :
    applyDelta ps (ps.map (fun p => List.replicate p.data.length (0 : ℚ))) = (ps, none) := by
  induction ps with
  | nil => rfl
  | cons p ps ih =>
    have hp : p.requiresGrad = true := h p (by simp)
    have hrest : ∀ q ∈ ps, q.requiresGrad = true := fun q hq => h q (by simp [hq])
    simp only [List.map_cons, applyDelta, if_pos hp, List.length_replicate, if_pos rfl,
      ih hrest]
    cases p with
    | mk d g => simp [zipWith_add_zeros]

theorem set_self_eq (l : List Param) (i : Nat) (h : i < l.length) : l.set i l[i] = l := by
  apply List.ext_getElem
  · simp
  · intro n h1 h2
    rw [List.getElem_set]
    split
    · rename_i he; subst he; rfl
    · rfl

theorem foldl_set_id (pairs : List (Nat × Param)) (ps : List Param)
    (h : ∀ pr ∈ pairs, ps.set pr.1 pr.2 = ps) :
    pairs.foldl (fun acc pr => acc.set pr.1 pr.2) ps = ps := by
  induction pairs with
  | nil => rfl
  | cons pr pairs ih =>
    simp only [List.foldl_cons, h pr (by simp)]
    exact ih (fun q hq => h q (by simp [hq]))

theorem writeBack_range_self (ps : List Param) :
    writeBack ps (List.range ps.length) ps = ps := by
  unfold writeBack
  apply foldl_set_id
  intro pr hpr
  rw [← List.enum_eq_zip_range] at hpr
  rw [List.mem_enum_iff_getElem?] at hpr
  rw [List.getElem?_eq_some] at hpr
  obtain ⟨hlt, hget⟩ := hpr
  rw [← hget]
  exact set_self_eq ps pr.1 hlt

theorem map_getD_range (ps : List Param) :
    (List.range ps.length).map (fun i => ps.getD i pdef) = ps := by
  apply List.ext_getElem
  · simp
  · intro n h1 h2
    simp only [List.getElem_map, List.getElem_range]
    exact List.getD_eq_getElem ps pdef h2

theorem gnDelta_zero (fast : Bool) (J : Mat) (K E : Vec)
    (hK : K.length = J.length) (hE : E.length = J.length) (hzero : ∀ e ∈ E, e = 0) :
    gnDelta fast J K E = .ok (List.replicate (widthM J) 0) := by
  have hg : tGrad J K E = .ok (List.replicate (widthM J) 0) := by
    rw [tGrad_ok_of_lengths J K E hK hE, matVec_zeros _ E hzero, List.length_map,
      length_transposeM]
  have hzg : ∀ e ∈ List.replicate (widthM J) (0 : ℚ), e = 0 := by
    intro e he
    exact List.eq_of_mem_replicate he
  have hlg : (gram J).length = widthM J := by
    rw [length_gram, length_transposeM]
  show (tGrad J K E).bind _ = _
  rw [hg]
  show (if fast then lstsqSolve (gram J) _ else pure (matVec (pinvM (gram J)) _)) = _
  cases fast with
  | false =>
    simp only [if_neg Bool.false_ne_true]
    rw [show (pure (matVec (pinvM (gram J)) (List.replicate (widthM J) 0)) :
        Except Err Vec) = .ok (matVec (pinvM (gram J)) (List.replicate (widthM J) 0))
      from rfl]
    rw [matVec_zeros _ _ hzg, length_pinvM, hlg]
  | true =>
    rw [if_pos rfl]
    unfold lstsqSolve
    congr 1
    split
    · rw [matVec_zeros _ _ hzg, length_pinvM, hlg]
    · rw [matVec_zeros _ _ hzg, length_adjInv, hlg]

theorem lmDelta_zero (damping lo hi : ℚ) (J : Mat) (K E : Vec)
    (hK : K.length = J.length) (hE : E.length = J.length) (hzero : ∀ e ∈ E, e = 0)
    (hpd : posDefM (dampA (gram J) damping lo hi) = true) :
    lmDelta damping lo hi J K E = .ok (List.replicate (widthM J) 0) := by
  have hg : tGrad J K E = .ok (List.replicate (widthM J) 0) := by
    rw [tGrad_ok_of_lengths J K E hK hE, matVec_zeros _ E hzero, List.length_map,
      length_transposeM]
  have hzg : ∀ e ∈ List.replicate (widthM J) (0 : ℚ), e = 0 := by
    intro e he
    exact List.eq_of_mem_replicate he
  show (tGrad J K E).bind _ = _
  rw [hg]
  show cholSolve (dampA (gram J) damping lo hi) _ = _
  simp only [cholSolve, hpd, if_pos]
  rw [matVec_zeros _ _ hzg, length_adjInv, length_dampA, length_gram, length_transposeM]

theorem groupStep_zero_delta (m : Model) (x : Vec)
    (delta : Mat → Vec → Vec → Except Err Vec) (K E : Vec) (ps : List Param)
    (hd : delta (modjac m ps x) K E = .ok (List.replicate (widthM (modjac m ps x)) 0))
    (hw : widthM (modjac m ps x) = (trainCat ps).length)
    (hgrad : ∀ p ∈ ps, p.requiresGrad = true) :
    groupStep m x delta K E ps (List.range ps.length) = (ps, none) := by
  have hfil : ps.filter (fun p => p.requiresGrad) = ps :=
    List.filter_eq_self.mpr (fun a ha => hgrad a ha)
  have hsum : (ps.map (fun p => p.data.length)).sum = widthM (modjac m ps x) := by
    rw [hw, trainCat_length_sum, hfil]
  simp only [groupStep, map_getD_range, hfil, hd]
  have hsplit : splitSizes (List.replicate (widthM (modjac m ps x)) 0)
      (ps.map (fun p => p.data.length)) =
      .ok ((ps.map (fun p => p.data.length)).map (fun n => List.replicate n 0)) := by
    rw [show splitSizes (List.replicate (widthM (modjac m ps x)) 0)
        (ps.map (fun p => p.data.length)) =
        if (ps.map (fun p => p.data.length)).sum =
            (List.replicate (widthM (modjac m ps x)) (0 : ℚ)).length then
          .ok (splitGo (List.replicate (widthM (modjac m ps x)) 0)
            (ps.map (fun p => p.data.length)))
        else .error .shape from rfl]
    rw [if_pos (by rw [List.length_replicate, hsum])]
    rw [splitGo_replicate _ _ (le_of_eq hsum)]
  rw [hsplit]
  simp only [List.map_map]
  have happ : applyDelta ps
      (List.map ((fun n => List.replicate n (0 : ℚ)) ∘ fun p => p.data.length) ps) =
      (ps, none) := applyDelta_zeros ps hgrad
  rw [happ]
  simp only [writeBack_range_self]

theorem runStep_zero_residual (m : Model) (k : Kernel)
    (delta : Mat → Vec → Vec → Except Err Vec) (ps : List Param) (x : Vec)
    (tgt : Option TOut) (E : Vec)
    (hres : GaussNewton.residual m ps x tgt = .ok E)
    (hd : delta (modjac m ps x) (kweights k E) E =
      .ok (List.replicate (widthM (modjac m ps x)) 0))
    (hw : widthM (modjac m ps x) = (trainCat ps).length)
    (hgrad : ∀ p ∈ ps, p.requiresGrad = true) :
    runStep m k delta [List.range ps.length] ps x tgt = ⟨ps, .ok (lossOf k E)⟩ := by
  unfold runStep
  rw [hres]
  simp only [optLoop, groupStep_zero_delta m x delta (kweights k E) E ps hd hw hgrad, hres]

/-- C9.  Zero-residual fixed point: for a well-shaped, fully trainable
configuration whose pre-update residual `E` is exactly the zero vector (and
whose LM damped matrix passes the Cholesky factorization), every solve path —
GN pseudo-inverse, GN lstsq, LM Cholesky — yields the zero delta vector, the
step call of either optimizer leaves every parameter unchanged, and the
returned loss equals the pre-update loss `Σ kernel(E²)`. -/
theorem zero_residual_fixed_point (m : Model) (k : Kernel) (ps : List Param) (x : Vec)
    (tgt : Option TOut) (damping lo hi : ℚ) (E : Vec)
    (hres : GaussNewton.residual m ps x tgt = .ok E)
    (hzero : ∀ e ∈ E, e = 0)
    (hlen : E.length = m.Wt.length)
    (hM : 0 < m.Wt.length)
    (hQM : m.Q.length = m.Wt.length)
    (hWt : ∀ r ∈ m.Wt, r.length = (trainCat ps).length)
    (hQ : ∀ r ∈ m.Q, r.length = (trainCat ps).length)
    (hgrad : ∀ p ∈ ps, p.requiresGrad = true)
    (hpd : posDefM (dampA (gram (modjac m ps x)) damping lo hi) = true) :
    gnDelta false (modjac m ps x) (kweights k E) E =
        .ok (List.replicate (widthM (modjac m ps x)) 0) ∧
      gnDelta true (modjac m ps x) (kweights k E) E =
        .ok (List.replicate (widthM (modjac m ps x)) 0) ∧
      lmDelta damping lo hi (modjac m ps x) (kweights k E) E =
        .ok (List.replicate (widthM (modjac m ps x)) 0) ∧
      GaussNewton.step m k false [List.range ps.length] ps x tgt =
        ⟨ps, .ok (lossOf k E)⟩ ∧
      GaussNewton.step m k true [List.range ps.length] ps x tgt =
        ⟨ps, .ok (lossOf k E)⟩ ∧
      LevenbergMarquardt.step m k damping lo hi [List.range ps.length] ps x tgt =
        ⟨ps, .ok (lossOf k E)⟩ := by
  have hJ : (modjac m ps x).length = m.Wt.length := length_modjac m ps x hQM
  have hK : (kweights k E).length = (modjac m ps x).length := by
    simp only [kweights, List.length_map, hlen, hJ]
  have hE : E.length = (modjac m ps x).length := by rw [hlen, hJ]
  have hw : widthM (modjac m ps x) = (trainCat ps).length :=
    widthM_modjac_eq m ps x hM hQM hWt hQ
  have h1 := gnDelta_zero false (modjac m ps x) (kweights k E) E hK hE hzero
  have h2 := gnDelta_zero true (modjac m ps x) (kweights k E) E hK hE hzero
  have h3 := lmDelta_zero damping lo hi (modjac m ps x) (kweights k E) E hK hE hzero hpd
  refine ⟨h1, h2, h3, ?_, ?_, ?_⟩
  · exact runStep_zero_residual m k (gnDelta false) ps x tgt E hres h1 hw hgrad
  · exact runStep_zero_residual m k (gnDelta true) ps x tgt E hres h2 hw hgrad
  · exact runStep_zero_residual m k (lmDelta damping lo hi) ps x tgt E hres h3 hw hgrad

/-- Model for the C9 witness: `f(θ) = θ` with one trainable scalar. -/
def mC9 : Model := ⟨[[1]], [[0]], [[]], [[]], [0], none⟩

/-- Parameter storage for the C9 witness. -/
def psC9 : List Param := [⟨[0], true⟩]

/-- Witness for C9: the model `f(θ) = θ` with one trainable parameter at `0`
and no targets has residual exactly `[0]`; all hypotheses hold and all three
solve paths return the zero delta with both optimizers leaving the parameter
unchanged. -/
theorem zero_residual_fixed_point_witness :
    gnDelta false (modjac mC9 psC9 []) (kweights identK [0]) [0] =
        .ok (List.replicate (widthM (modjac mC9 psC9 [])) 0) ∧
      gnDelta true (modjac mC9 psC9 []) (kweights identK [0]) [0] =
        .ok (List.replicate (widthM (modjac mC9 psC9 [])) 0) ∧
      lmDelta 1 0 10 (modjac mC9 psC9 []) (kweights identK [0]) [0] =
        .ok (List.replicate (widthM (modjac mC9 psC9 [])) 0) ∧
      GaussNewton.step mC9 identK false [List.range psC9.length] psC9 [] none =
        ⟨psC9, .ok (lossOf identK [0])⟩ ∧
      GaussNewton.step mC9 identK true [List.range psC9.length] psC9 [] none =
        ⟨psC9, .ok (lossOf identK [0])⟩ ∧
      LevenbergMarquardt.step mC9 identK 1 0 10 [List.range psC9.length] psC9 [] none =
        ⟨psC9, .ok (lossOf identK [0])⟩ := by
  refine zero_residual_fixed_point mC9 identK psC9 [] none 1 0 10 [0] ?_ ?_ ?_ ?_ ?_ ?_ ?_
    ?_ ?_
  · norm_num [GaussNewton.residual, residualE, Model.forward, forwardVec, trainCat,
      frozenCat, vadd, matVec, dotQ, mC9, psC9]
  · simp
  · simp [mC9]
  · simp [mC9]
  · simp [mC9]
  · intro r hr
    have : r = [1] := by simpa [mC9] using hr
    simp [this, trainCat, psC9]
  · intro r hr
    have : r = [0] := by simpa [mC9] using hr
    simp [this, trainCat, psC9]
  · simp [psC9]
  · norm_num [posDefM, dampA, clampQ, gram, matMulM, transposeM, widthM, colJ, modjac,
      matAdd, colScale, trainCat, detQ, detFuel, signQ, dotQ, mC9, psC9, List.range_succ]

/-! ### C10 -/

/-- The step computation written exactly as the claim describes the
control flow: the residual `E` and the kernel weights `K` are computed once,
before any parameter is updated, and the SAME pre-update `E` and `K` are
handed to every parameter group's solve, while the loop state (a fold over
the groups) carries the in-place updated parameter storage, from which each
group's Jacobian is recomputed (`groupStep` calls `modjac` on the
accumulated state); an error freezes the fold state.  Spec-side staging of
`runStep`, used only for the structural comparison. -/
def stagedStep (m : Model) (k : Kernel) (delta : Mat → Vec → Vec → Except Err Vec)
    (groups : List (List Nat)) (ps : List Param) (x : Vec) (tgt : Option TOut) : StepRes :=
  match GaussNewton.residual m ps x tgt with
  | .error e => ⟨ps, .error e⟩
  | .ok E =>
    let K := kweights k E
    match groups.foldl
        (fun st g =>
          match st.2 with
          | some _ => st
          | none => groupStep m x delta K E st.1 g) (ps, none) with
    | (ps2, some e) => ⟨ps2, .error e⟩
    | (ps2, none) =>
      match GaussNewton.residual m ps2 x tgt with
      | .error e => ⟨ps2, .error e⟩
      | .ok E2 => ⟨ps2, .ok (lossOf k E2)⟩

theorem foldl_groupStep_frozen (m : Model) (x : Vec)
    (delta : Mat → Vec → Vec → Except Err Vec) (K E : Vec) (gs : List (List Nat))
    (st : List Param × Option Err) (e : Err) (h : st.2 = some e) :
    gs.foldl (fun st g =>
        match st.2 with
        | some _ => st
        | none => groupStep m x delta K E st.1 g) st = st := by
  induction gs with
  | nil => rfl
  | cons g gs ih =>
    simp only [List.foldl_cons, h]
    exact ih

theorem optLoop_eq_foldl (m : Model) (x : Vec)
    (delta : Mat → Vec → Vec → Except Err Vec) (K E : Vec) :
    ∀ (groups : List (List Nat)) (ps : List Param),
      optLoop m x delta K E groups ps =
        groups.foldl (fun st g =>
          match st.2 with
          | some _ => st
          | none => groupStep m x delta K E st.1 g) (ps, none) := by
  intro groups
  induction groups with
  | nil => intro ps; rfl
  | cons g gs ih =>
    intro ps
    simp only [optLoop, List.foldl_cons]
    cases hg : groupStep m x delta K E ps g with
    | mk ps2 oe =>
      cases oe with
      | some e =>
        rw [foldl_groupStep_frozen m x delta K E gs (ps2, some e) e rfl]
      | none => exact ih ps2

/-- Model for C10's Jacobian-dependence conjunct: `f(θ) = θ + θ²`, whose
Jacobian `1 + 2θ` genuinely changes when the parameter is updated. -/
def mC10 : Model := ⟨[[1]], [[1]], [[]], [[]], [0], none⟩

/-- Parameter storage for C10's Jacobian-dependence conjunct. -/
def psC10 : List Param := [⟨[1], true⟩]

/-- C10.  Structure of a step call: both optimizers' `step` (= `runStep`
instantiated with the respective delta) is exactly the staged computation in
which the residual `E` and kernel weights `K` are computed once, before any
parameter update, and reused unchanged for the solve of every parameter
group, while the Jacobian is recomputed inside the per-group fold from the
accumulated (already-updated) parameter state.  The second conjunct shows
the recomputation is not vacuous: after one group's update (here computed by
`groupStep` itself with the pre-update `E = [-2]`, `K = [1]`), `modjac`
returns a different Jacobian than at the original parameters. -/
theorem step_staged_structure :
    (∀ (m : Model) (k : Kernel) (delta : Mat → Vec → Vec → Except Err Vec)
        (groups : List (List Nat)) (ps : List Param) (x : Vec) (tgt : Option TOut),
      runStep m k delta groups ps x tgt = stagedStep m k delta groups ps x tgt) ∧
      modjac mC10 (groupStep mC10 [] (gnDelta false) [1] [-2] psC10 [0]).1 [] ≠
        modjac mC10 psC10 [] := by
  constructor
  · intro m k delta groups ps x tgt
    unfold runStep stagedStep
    cases hres : GaussNewton.residual m ps x tgt with
    | error e => rfl
    | ok E => simp only [optLoop_eq_foldl]
  · norm_num [groupStep, modjac, matAdd, colScale, trainCat, gnDelta, tGrad, bmulKJt,
      tMatVec, transposeM, widthM, colJ, gram, matMulM, pinvM, detQ, detFuel, signQ,
      adjInv, minorM, matVec, dotQ, splitSizes, splitGo, applyDelta, writeBack, pdef,
      mC10, psC10, List.range_succ, Function.comp, Except.map, bind, Except.bind, pure,
      Except.pure]
